import Mathlib

/-!
Verification of the URL-shortener mapping store (`src/services/storage.py`)
and the short-code generator (`src/core/utils.py`).

Python dictionaries are insertion-ordered maps; we embed them as association
lists `List (String × α)` where an assignment `d[k] = v` updates the first
occurrence of `k` in place (keeping its position) or appends `(k, v)` at the
end, `del d[k]` removes the first occurrence, and lookup returns the value at
the first occurrence.  `defaultdict(int)` reads (`d[k]` in rvalue position)
return the stored value when the key is present and otherwise insert and
return `0`.
-/

namespace UrlShortener

/-- Lookup in an association list: value at the first occurrence of `k`. -/
def getKey? {α : Type} (m : List (String × α)) (k : String) : Option α :=
  match m with
  | [] => none
  | (k', v) :: rest => if k' = k then some v else getKey? rest k

/-- Lookup with a default value (models `defaultdict` reads observationally). -/
def getKeyD {α : Type} (m : List (String × α)) (k : String) (d : α) : α :=
  (getKey? m k).getD d

/-- `d[k] = v`: replace the value at the first occurrence of `k`, keeping its
position, or append `(k, v)` when `k` is absent (Python dict assignment). -/
def setKey {α : Type} (m : List (String × α)) (k : String) (v : α) :
    List (String × α) :=
  match m with
  | [] => [(k, v)]
  | (k', v') :: rest =>
      if k' = k then (k, v) :: rest else (k', v') :: setKey rest k v

/-- `del d[k]`: remove the first occurrence of `k`; identity when absent. -/
def eraseKey {α : Type} (m : List (String × α)) (k : String) :
    List (String × α) :=
  match m with
  | [] => []
  | (k', v') :: rest =>
      if k' = k then rest else (k', v') :: eraseKey rest k

/-- The keys of an association list, in order. -/
def keysOf {α : Type} (m : List (String × α)) : List String :=
  m.map Prod.fst

/-- A `defaultdict(int)` rvalue read `d[k]`: returns the stored value, and the
(possibly extended) dictionary — when `k` is absent the entry `(k, 0)` is
materialised at the end, as CPython does. -/
def dictIntRead (m : List (String × Nat)) (k : String) :
    Nat × List (String × Nat) :=
  match getKey? m k with
  | some v => (v, m)
  | none => (0, m ++ [(k, 0)])

/-- The state of `URLStorage`: the three dictionaries `_urls`,
`_access_counts` (a `defaultdict(int)`) and `_created_at`. -/
structure URLStorage where
  urls : List (String × String)
  accessCounts : List (String × Nat)
  createdAt : List (String × String)
deriving DecidableEq, Repr

/-- The freshly constructed store (`__init__`). -/
def URLStorage.init : URLStorage := ⟨[], [], []⟩

/-- `save(short_code, original_url)`: writes `_urls[short_code]` and
`_created_at[short_code] = datetime.now().isoformat()`; the wall-clock
timestamp is passed in as `now`. -/
def save (s : URLStorage) (short_code original_url now : String) : URLStorage :=
  { s with
    urls := setKey s.urls short_code original_url
    createdAt := setKey s.createdAt short_code now }

/-- `get(short_code)`: `self._urls.get(short_code)`. -/
def get (s : URLStorage) (short_code : String) : Option String :=
  getKey? s.urls short_code

/-- The dictionary returned by `get_with_details`. -/
structure Details where
  original_url : String
  access_count : Nat
  created_at : Option String
deriving DecidableEq, Repr

/-- `get_with_details(short_code)`: `None` if the code is not in `_urls`;
otherwise the three attributes.  The `self._access_counts[short_code]` read is
a `defaultdict` rvalue read, which may materialise a `0` entry, so the
(possibly updated) state is returned alongside the result. -/
def get_with_details (s : URLStorage) (short_code : String) :
    Option Details × URLStorage :=
  match getKey? s.urls short_code with
  | none => (none, s)
  | some url =>
      let r := dictIntRead s.accessCounts short_code
      (some ⟨url, r.1, getKey? s.createdAt short_code⟩,
       { s with accessCounts := r.2 })

/-- `increment_access(short_code)`: if the code is in `_urls`, add 1 to
`self._access_counts[short_code]` (a `defaultdict` read-then-write). -/
def increment_access (s : URLStorage) (short_code : String) : URLStorage :=
  if (getKey? s.urls short_code).isSome then
    { s with
      accessCounts :=
        setKey s.accessCounts short_code
          (getKeyD s.accessCounts short_code 0 + 1) }
  else s

/-- `update(short_code, new_url)`: replace `_urls[short_code]` in place if
present and return `True`; otherwise return `False`. -/
def update (s : URLStorage) (short_code new_url : String) :
    Bool × URLStorage :=
  if (getKey? s.urls short_code).isSome then
    (true, { s with urls := setKey s.urls short_code new_url })
  else (false, s)

/-- `exists(short_code)`: `short_code in self._urls`. -/
def existsCode (s : URLStorage) (short_code : String) : Bool :=
  (getKey? s.urls short_code).isSome

/-- `delete(short_code)`: if present, delete the code from all three
dictionaries and return `True`; otherwise return `False`.  (`eraseKey` on an
absent key is the identity, matching the `if ... in` guards.) -/
def delete (s : URLStorage) (short_code : String) : Bool × URLStorage :=
  if (getKey? s.urls short_code).isSome then
    (true,
     ⟨eraseKey s.urls short_code,
      eraseKey s.accessCounts short_code,
      eraseKey s.createdAt short_code⟩)
  else (false, s)

/-- `bulk_delete(short_codes)`: apply `delete` to each code in order,
counting successes and collecting failed codes in input order. -/
def bulk_delete (s : URLStorage) : List String →
    (Nat × List String) × URLStorage
  | [] => ((0, []), s)
  | code :: rest =>
      let r := delete s code
      let br := bulk_delete r.2 rest
      if r.1 then ((br.1.1 + 1, br.1.2), br.2)
      else ((br.1.1, code :: br.1.2), br.2)

/-- `count()`: `len(self._urls)`. -/
def countUrls (s : URLStorage) : Nat :=
  s.urls.length

/-- `Bool`-valued list prefix test (`listPrefixB sub l` : is `sub` a prefix
of `l`?). -/
def listPrefixB : List Char → List Char → Bool
  | [], _ => true
  | _ :: _, [] => false
  | a :: s, b :: t => a == b && listPrefixB s t

/-- `Bool`-valued substring test on character lists: does `sub` occur as a
contiguous sublist? -/
def listInfixB (sub : List Char) : List Char → Bool
  | [] => listPrefixB sub []
  | c :: t => listPrefixB sub (c :: t) || listInfixB sub t

/-- Python's `sub in hay` on strings: contiguous-substring membership
(the empty string is a substring of everything). -/
def strContains (hay sub : String) : Bool :=
  listInfixB sub.toList hay.toList

/-- Python's `str.lower()`: lowercase the string character by character. -/
def strLower (s : String) : String :=
  ⟨s.toList.map Char.toLower⟩

/-- One element of the list returned by `search`. -/
structure SearchResult where
  short_code : String
  original_url : String
  access_count : Nat
deriving DecidableEq, Repr

/-- The `for code, url in self._urls.items()` loop of `search`, threading the
`_access_counts` defaultdict (whose rvalue reads may materialise `0`
entries). -/
def searchLoop (ql : String) (counts : List (String × Nat)) :
    List (String × String) → List SearchResult × List (String × Nat)
  | [] => ([], counts)
  | (code, url) :: rest =>
      if strContains (strLower code) ql || strContains (strLower url) ql then
        let r := dictIntRead counts code
        let rs := searchLoop ql r.2 rest
        (⟨code, url, r.1⟩ :: rs.1, rs.2)
      else searchLoop ql counts rest

/-- `search(query)`: case-insensitive substring match of the query against
each short code and each URL. -/
def search (s : URLStorage) (query : String) :
    List SearchResult × URLStorage :=
  let r := searchLoop (strLower query) s.accessCounts s.urls
  (r.1, { s with accessCounts := r.2 })

/-- Insert a pair into a count-descending-sorted list, before any element of
strictly smaller count and after all elements of greater-or-equal count. -/
def insertCountDesc (p : String × Nat) :
    List (String × Nat) → List (String × Nat)
  | [] => [p]
  | q :: rest => if p.2 < q.2 then q :: insertCountDesc p rest else p :: q :: rest

/-- Stable insertion sort by `access_count` descending: the embedding of
`sorted(self._access_counts.items(), key=lambda x: x[1], reverse=True)`
(Python's `sorted` is stable; equal counts keep their original order). -/
def sortCountDesc : List (String × Nat) → List (String × Nat)
  | [] => []
  | p :: rest => insertCountDesc p (sortCountDesc rest)

/-- The dictionary returned by `get_stats`; the `most_accessed` and
`least_accessed` elements are `(short_code, access_count)` pairs. -/
structure Stats where
  total_urls : Nat
  total_accesses : Nat
  most_accessed : List (String × Nat)
  least_accessed : List (String × Nat)
deriving DecidableEq, Repr

/-- `get_stats()`: totals plus top-5 / bottom-5 of `_access_counts.items()`
sorted by count descending.  Python's `l[:5]` is `take 5`; `l[-5:]` is
`drop (length - 5)` (the whole list when it has fewer than 5 elements). -/
def get_stats (s : URLStorage) : Stats :=
  let sorted_by_access := sortCountDesc s.accessCounts
  { total_urls := s.urls.length
    total_accesses := (s.accessCounts.map Prod.snd).sum
    most_accessed := sorted_by_access.take 5
    least_accessed := sorted_by_access.drop (sorted_by_access.length - 5) }

/-- `settings.short_code_length` (`src/core/config.py`), default 6. -/
def short_code_length : Nat := 6

/-- `generate_short_code(url, attempt)` (`src/core/utils.py`): hash
`f"{url}{attempt}"` when `attempt > 0`, the bare URL otherwise, and keep the
first `short_code_length` characters of the hex digest.  `hashlib.md5` is an
external library; the embedding is parameterised by the hex-digest function
`md5hex`. -/
def generate_short_code (md5hex : String → String) (url : String)
    (attempt : Nat) : String :=
  let input_string := if attempt > 0 then url ++ toString attempt else url
  (md5hex input_string).take short_code_length

/-- The observable access count of a code: the `defaultdict(int)` view of
`_access_counts` (0 when the key has never been materialised). -/
def accessCountOf (s : URLStorage) (code : String) : Nat :=
  getKeyD s.accessCounts code 0

/-- `n` successive calls to `increment_access` on the same code. -/
def iterIncrement (s : URLStorage) (code : String) : Nat → URLStorage
  | 0 => s
  | n + 1 => increment_access (iterIncrement s code n) code

/-! ### Lemmas about the association-list primitives -/

theorem getKey?_setKey_self {α : Type} (m : List (String × α)) (k : String)
    (v : α) : getKey? (setKey m k v) k = some v := by
  induction m with
  | nil => simp [setKey, getKey?]
  | cons p rest ih =>
      obtain ⟨k', v'⟩ := p
      by_cases h : k' = k
      · simp [setKey, h, getKey?]
      · simp [setKey, h, getKey?, ih]

theorem getKey?_setKey_ne {α : Type} (m : List (String × α)) (k k' : String)
    (v : α) (h : k' ≠ k) : getKey? (setKey m k v) k' = getKey? m k' := by
  induction m with
  | nil => simp [setKey, getKey?, Ne.symm h]
  | cons p rest ih =>
      obtain ⟨k₀, v₀⟩ := p
      by_cases h₀ : k₀ = k
      · subst h₀
        simp [setKey, getKey?, Ne.symm h]
      · simp [setKey, h₀, getKey?, ih]

theorem getKey?_eq_none_iff {α : Type} (m : List (String × α)) (k : String) :
    getKey? m k = none ↔ k ∉ keysOf m := by
  induction m with
  | nil => simp [getKey?, keysOf]
  | cons p rest ih =>
      obtain ⟨k', v'⟩ := p
      by_cases h : k' = k
      · simp [getKey?, h, keysOf]
      · simp [getKey?, h, keysOf, ih, Ne.symm h]

theorem length_setKey_of_mem {α : Type} (m : List (String × α)) (k : String)
    (v : α) (h : (getKey? m k).isSome) :
    (setKey m k v).length = m.length := by
  induction m with
  | nil => simp [getKey?] at h
  | cons p rest ih =>
      obtain ⟨k', v'⟩ := p
      by_cases h' : k' = k
      · simp [setKey, h']
      · simp only [getKey?, if_neg h'] at h
        simp [setKey, h', ih h]

theorem length_setKey_of_notMem {α : Type} (m : List (String × α))
    (k : String) (v : α) (h : getKey? m k = none) :
    (setKey m k v).length = m.length + 1 := by
  induction m with
  | nil => simp [setKey]
  | cons p rest ih =>
      obtain ⟨k', v'⟩ := p
      by_cases h' : k' = k
      · simp [getKey?, h'] at h
      · simp only [getKey?, if_neg h'] at h
        simp [setKey, h', ih h]

theorem getKey?_eraseKey_ne {α : Type} (m : List (String × α)) (k k' : String)
    (h : k' ≠ k) : getKey? (eraseKey m k) k' = getKey? m k' := by
  induction m with
  | nil => simp [eraseKey]
  | cons p rest ih =>
      obtain ⟨k₀, v₀⟩ := p
      by_cases h₀ : k₀ = k
      · subst h₀
        simp [eraseKey, getKey?, Ne.symm h]
      · simp [eraseKey, h₀, getKey?, ih]

theorem getKey?_eraseKey_self {α : Type} (m : List (String × α)) (k : String)
    (h : (keysOf m).Nodup) : getKey? (eraseKey m k) k = none := by
  induction m with
  | nil => simp [eraseKey, getKey?]
  | cons p rest ih =>
      obtain ⟨k', v'⟩ := p
      simp only [keysOf, List.map_cons, List.nodup_cons] at h
      by_cases h' : k' = k
      · subst h'
        simp only [eraseKey, if_pos rfl]
        rw [getKey?_eq_none_iff]
        exact h.1
      · simp [eraseKey, h', getKey?, ih h.2]

theorem getKeyD_append_single {α : Type} (m : List (String × α))
    (k c : String) (d : α) :
    getKeyD (m ++ [(k, d)]) c d = getKeyD m c d := by
  induction m with
  | nil =>
      by_cases h : k = c <;> simp [getKeyD, getKey?, h]
  | cons p rest ih =>
      obtain ⟨k₀, v₀⟩ := p
      by_cases h₀ : k₀ = c
      · simp [getKeyD, getKey?, h₀]
      · simpa [getKeyD, getKey?, h₀] using ih

theorem dictIntRead_fst (m : List (String × Nat)) (k : String) :
    (dictIntRead m k).1 = getKeyD m k 0 := by
  unfold dictIntRead
  cases h : getKey? m k <;> simp [getKeyD, h]

theorem getKeyD_dictIntRead (m : List (String × Nat)) (k c : String) :
    getKeyD (dictIntRead m k).2 c 0 = getKeyD m c 0 := by
  unfold dictIntRead
  cases h : getKey? m k with
  | none => simpa using getKeyD_append_single m k c 0
  | some v => simp

/-! ### Lemmas about the descending insertion sort used by `get_stats` -/

theorem insertCountDesc_perm (p : String × Nat) (l : List (String × Nat)) :
    List.Perm (insertCountDesc p l) (p :: l) := by
  induction l with
  | nil => exact List.Perm.refl _
  | cons q rest ih =>
      by_cases h : p.2 < q.2
      · simp only [insertCountDesc, if_pos h]
        exact (ih.cons q).trans (List.Perm.swap p q rest)
      · simp [insertCountDesc, if_neg h]

theorem sortCountDesc_perm (l : List (String × Nat)) :
    List.Perm (sortCountDesc l) l := by
  induction l with
  | nil => exact List.Perm.refl _
  | cons p rest ih =>
      exact (insertCountDesc_perm p (sortCountDesc rest)).trans (ih.cons p)

theorem mem_insertCountDesc {p x : String × Nat} {l : List (String × Nat)}
    (h : x ∈ insertCountDesc p l) : x = p ∨ x ∈ l := by
  have := (insertCountDesc_perm p l).mem_iff.mp h
  simpa using this

theorem insertCountDesc_sorted (p : String × Nat) (l : List (String × Nat))
    (h : List.Sorted (fun a b : String × Nat => b.2 ≤ a.2) l) :
    List.Sorted (fun a b : String × Nat => b.2 ≤ a.2) (insertCountDesc p l) := by
  induction l with
  | nil => simp [insertCountDesc]
  | cons q rest ih =>
      rw [List.sorted_cons] at h
      by_cases hpq : p.2 < q.2
      · simp only [insertCountDesc, if_pos hpq]
        rw [List.sorted_cons]
        refine ⟨?_, ih h.2⟩
        intro b hb
        rcases mem_insertCountDesc hb with rfl | hb'
        · exact le_of_lt hpq
        · exact h.1 b hb'
      · simp only [insertCountDesc, if_neg hpq]
        push_neg at hpq
        rw [List.sorted_cons]
        refine ⟨?_, List.sorted_cons.mpr h⟩
        intro b hb
        rcases List.mem_cons.mp hb with rfl | hb'
        · exact hpq
        · exact le_trans (h.1 b hb') hpq

theorem sortCountDesc_sorted (l : List (String × Nat)) :
    List.Sorted (fun a b : String × Nat => b.2 ≤ a.2) (sortCountDesc l) := by
  induction l with
  | nil => simp [sortCountDesc]
  | cons p rest ih => exact insertCountDesc_sorted p _ ih

theorem sortCountDesc_length (l : List (String × Nat)) :
    (sortCountDesc l).length = l.length :=
  (sortCountDesc_perm l).length_eq

/-! ### Summing `defaultdict` values over a superset of the keys -/

theorem sum_getKeyD_of_nodup (m : List (String × Nat)) (K : List String)
    (hK : K.Nodup) (hm : (keysOf m).Nodup)
    (hsub : ∀ c ∈ keysOf m, c ∈ K) :
    (K.map (fun c => getKeyD m c 0)).sum = (m.map Prod.snd).sum := by
  induction m generalizing K with
  | nil => simp [getKeyD, getKey?]
  | cons p m' ih =>
      obtain ⟨k, v⟩ := p
      simp only [keysOf, List.map_cons, List.nodup_cons] at hm
      have hkK : k ∈ K := hsub k (by simp [keysOf])
      have hperm : List.Perm K (k :: K.erase k) := List.perm_cons_erase hkK
      have hmap := (hperm.map (fun c => getKeyD ((k, v) :: m') c 0)).sum_eq
      rw [hmap]
      simp only [List.map_cons, List.sum_cons]
      have hkk : getKeyD ((k, v) :: m') k 0 = v := by simp [getKeyD, getKey?]
      rw [hkk]
      have herase : ((K.erase k).map (fun c => getKeyD ((k, v) :: m') c 0))
          = ((K.erase k).map (fun c => getKeyD m' c 0)) := by
        apply List.map_congr_left
        intro c hc
        have hck : c ≠ k := ((hK.mem_erase_iff).mp hc).1
        simp [getKeyD, getKey?, Ne.symm hck]
      have hsub' : ∀ c ∈ keysOf m', c ∈ K.erase k := by
        intro c hc
        have hcK : c ∈ K := hsub c (by simp [keysOf] at hc ⊢; exact Or.inr hc)
        have hck : c ≠ k := by
          intro hckk
          exact hm.1 (hckk ▸ hc)
        exact (hK.mem_erase_iff).mpr ⟨hck, hcK⟩
      rw [herase, ih (K.erase k) (hK.erase k) hm.2 hsub']

/-! ### The search loop computes a pure filter over the original counts -/

theorem filterMap_congr_list {α β : Type} {l : List α} {f g : α → Option β}
    (h : ∀ x ∈ l, f x = g x) : l.filterMap f = l.filterMap g := by
  induction l with
  | nil => rfl
  | cons a rest ih =>
      rw [List.filterMap_cons, List.filterMap_cons, h a (by simp),
        ih fun x hx => h x (by simp [hx])]

theorem searchLoop_fst (ql : String) (counts : List (String × Nat))
    (urls : List (String × String)) :
    (searchLoop ql counts urls).1 =
      urls.filterMap (fun p =>
        if strContains (strLower p.1) ql || strContains (strLower p.2) ql then
          some ⟨p.1, p.2, getKeyD counts p.1 0⟩
        else none) := by
  induction urls generalizing counts with
  | nil => simp [searchLoop]
  | cons p rest ih =>
      obtain ⟨code, url⟩ := p
      by_cases h : (strContains (strLower code) ql || strContains (strLower url) ql) = true
      · simp only [searchLoop, h, if_pos, List.filterMap_cons]
        rw [ih (dictIntRead counts code).2, dictIntRead_fst]
        congr 1
        apply filterMap_congr_list
        intro x _
        rw [getKeyD_dictIntRead]
      · simp only [searchLoop, List.filterMap_cons]
        rw [if_neg h, if_neg h, ih counts]

/-! ### Claim theorems -/

/-- C2: `generate_short_code(url, attempt)` is a pure deterministic function
of `(url, attempt)`: for `attempt = 0` the fingerprint input is the URL alone,
for `attempt ≥ 1` it is the URL with the attempt number appended, and the
result is the `short_code_length`-character prefix (default 6) of the
fingerprint's hex digest; two calls with the same `url` and `attempt = 0`
yield the same candidate. -/
theorem generate_short_code_spec (md5hex : String → String) (url : String)
    (attempt : Nat) :
    (attempt = 0 →
      generate_short_code md5hex url attempt =
        (md5hex url).take short_code_length) ∧
    (1 ≤ attempt →
      generate_short_code md5hex url attempt =
        (md5hex (url ++ toString attempt)).take short_code_length) ∧
    generate_short_code md5hex url 0 = generate_short_code md5hex url 0 := by
  refine ⟨?_, ?_, rfl⟩
  · rintro rfl
    simp [generate_short_code]
  · intro h
    simp [generate_short_code, Nat.lt_of_lt_of_le Nat.zero_lt_one h]

/-- Witness for C2 at `url = "ab"`, `attempt = 0` and `attempt = 2`, with a
concrete stand-in digest function. -/
theorem generate_short_code_spec_witness :
    generate_short_code (fun s => s ++ s) "ab" 0 =
      ("ab" ++ "ab").take short_code_length ∧
    generate_short_code (fun s => s ++ s) "ab" 2 =
      (("ab" ++ toString 2) ++ ("ab" ++ toString 2)).take short_code_length := by
  refine ⟨(generate_short_code_spec (fun s => s ++ s) "ab" 0).1 rfl, ?_⟩
  exact (generate_short_code_spec (fun s => s ++ s) "ab" 2).2.1 (by decide)

/-- C3: for a code absent from the store (the caller-guaranteed
precondition), `save` inserts a new entry whose access count is 0 and whose
`created_at` is the creation time; afterwards `get` returns the URL and
`count` is one greater than before.  The subset hypothesis is the
`_access_counts`-keys-within-`_urls`-keys invariant every reachable store
satisfies. -/
theorem save_creates (s : URLStorage) (code url now : String)
    (hpre : getKey? s.urls code = none)
    (hinv : ∀ c ∈ keysOf s.accessCounts, c ∈ keysOf s.urls) :
    get (save s code url now) code = some url ∧
    countUrls (save s code url now) = countUrls s + 1 ∧
    (get_with_details (save s code url now) code).1 =
      some ⟨url, 0, some now⟩ := by
  have hu : getKey? (save s code url now).urls code = some url := by
    simp [save, getKey?_setKey_self]
  refine ⟨hu, ?_, ?_⟩
  · simp [countUrls, save, length_setKey_of_notMem s.urls code url hpre]
  · have hc : getKey? s.accessCounts code = none := by
      rw [getKey?_eq_none_iff]
      intro hmem
      exact (getKey?_eq_none_iff s.urls code).mp hpre (hinv code hmem)
    simp [get_with_details, hu, save, dictIntRead_fst, getKeyD, hc,
      getKey?_setKey_self]

/-- Witness for C3: saving into the empty store. -/
theorem save_creates_witness :
    get (save URLStorage.init "abc" "http://x" "t0") "abc" = some "http://x" ∧
    countUrls (save URLStorage.init "abc" "http://x" "t0") =
      countUrls URLStorage.init + 1 ∧
    (get_with_details (save URLStorage.init "abc" "http://x" "t0") "abc").1 =
      some ⟨"http://x", 0, some "t0"⟩ :=
  save_creates URLStorage.init "abc" "http://x" "t0" rfl
    (by simp [keysOf, URLStorage.init])

/-- C10: `save` on an already-present code performs no duplicate check: it
silently replaces the entry's URL and overwrites its `created_at` with the
current time, while `_access_counts` is left entirely unchanged (in
particular the entry's count is not reset to 0) and no entry is added. -/
theorem save_overwrite_spec (s : URLStorage) (code url now : String)
    (h : existsCode s code = true) :
    get (save s code url now) code = some url ∧
    getKey? (save s code url now).createdAt code = some now ∧
    (save s code url now).accessCounts = s.accessCounts ∧
    countUrls (save s code url now) = countUrls s := by
  refine ⟨by simp [get, save, getKey?_setKey_self],
    by simp [save, getKey?_setKey_self], rfl, ?_⟩
  simp only [countUrls, save]
  exact length_setKey_of_mem s.urls code url (by simpa [existsCode] using h)

/-- Witness for C10: overwriting the entry `"a"` that has count 5. -/
theorem save_overwrite_spec_witness :
    get (save ⟨[("a", "u")], [("a", 5)], [("a", "t0")]⟩ "a" "u2" "t1") "a" =
      some "u2" ∧
    getKey? (save ⟨[("a", "u")], [("a", 5)], [("a", "t0")]⟩ "a" "u2"
      "t1").createdAt "a" = some "t1" ∧
    (save ⟨[("a", "u")], [("a", 5)], [("a", "t0")]⟩ "a" "u2"
      "t1").accessCounts = [("a", 5)] ∧
    countUrls (save ⟨[("a", "u")], [("a", 5)], [("a", "t0")]⟩ "a" "u2" "t1") =
      countUrls ⟨[("a", "u")], [("a", 5)], [("a", "t0")]⟩ :=
  save_overwrite_spec ⟨[("a", "u")], [("a", 5)], [("a", "t0")]⟩ "a" "u2" "t1"
    (by decide)

/-- C7: `update` replaces only the entry's `original_url` — the
`_access_counts` and `_created_at` dictionaries are identical before and
after — returning `True` when the code is present; on an absent code it
returns `False` and leaves the store unchanged. -/
theorem update_spec (s : URLStorage) (code new_url : String) :
    (update s code new_url).2.accessCounts = s.accessCounts ∧
    (update s code new_url).2.createdAt = s.createdAt ∧
    (existsCode s code = true →
      (update s code new_url).1 = true ∧
      get (update s code new_url).2 code = some new_url ∧
      ∀ c, c ≠ code → get (update s code new_url).2 c = get s c) ∧
    (existsCode s code = false →
      (update s code new_url).1 = false ∧ (update s code new_url).2 = s) := by
  by_cases h : (getKey? s.urls code).isSome
  · refine ⟨by simp [update, h], by simp [update, h], ?_, ?_⟩
    · intro _
      refine ⟨by simp [update, h], ?_, ?_⟩
      · simp [update, h, get, getKey?_setKey_self]
      · intro c hc
        simp [update, h, get, getKey?_setKey_ne s.urls code c new_url hc]
    · intro hfalse
      rw [existsCode] at hfalse
      rw [hfalse] at h
      simp at h
  · refine ⟨by simp [update, h], by simp [update, h], ?_, ?_⟩
    · intro htrue
      rw [existsCode] at htrue
      exact absurd htrue h
    · intro _
      exact ⟨by simp [update, h], by simp [update, h]⟩

/-- Witness for C7: updating the present code `"a"` and the absent code
`"zz"`. -/
theorem update_spec_witness :
    ((update ⟨[("a", "u")], [("a", 2)], [("a", "t")]⟩ "a" "w").1 = true ∧
      get (update ⟨[("a", "u")], [("a", 2)], [("a", "t")]⟩ "a" "w").2 "a" =
        some "w") ∧
    ((update ⟨[("a", "u")], [("a", 2)], [("a", "t")]⟩ "zz" "w").1 = false ∧
      (update ⟨[("a", "u")], [("a", 2)], [("a", "t")]⟩ "zz" "w").2 =
        ⟨[("a", "u")], [("a", 2)], [("a", "t")]⟩) := by
  constructor
  · have h := (update_spec ⟨[("a", "u")], [("a", 2)], [("a", "t")]⟩ "a"
      "w").2.2.1 (by decide)
    exact ⟨h.1, h.2.1⟩
  · exact (update_spec ⟨[("a", "u")], [("a", 2)], [("a", "t")]⟩ "zz"
      "w").2.2.2 (by decide)

theorem increment_access_urls (s : URLStorage) (code : String) :
    (increment_access s code).urls = s.urls := by
  unfold increment_access
  by_cases h : (getKey? s.urls code).isSome <;> simp [h]

theorem iterIncrement_urls (s : URLStorage) (code : String) (n : Nat) :
    (iterIncrement s code n).urls = s.urls := by
  induction n with
  | zero => rfl
  | succ n ih => rw [iterIncrement, increment_access_urls, ih]

theorem iterIncrement_next (s : URLStorage) (code : String) (n : Nat) :
    iterIncrement s code (n + 1) =
      increment_access (iterIncrement s code n) code := rfl

theorem accessCountOf_increment_self (s : URLStorage) (code : String)
    (h : existsCode s code = true) :
    accessCountOf (increment_access s code) code = accessCountOf s code + 1 := by
  rw [existsCode] at h
  unfold increment_access
  simp only [h, if_pos]
  simp [accessCountOf, getKeyD, getKey?_setKey_self]

/-- C4: for a code present in the store, `n` successive calls to
`increment_access` leave its access count equal to its previous value plus
`n`; `increment_access` on an absent code is a no-op; and `get_with_details`
never changes any observable access count (`get` is embedded as a pure
function — it takes no lock on the state and returns none — so it cannot
change a count by construction). -/
theorem increment_access_spec (s : URLStorage) (code : String) (n : Nat) :
    (existsCode s code = true →
      accessCountOf (iterIncrement s code n) code = accessCountOf s code + n) ∧
    (existsCode s code = false → increment_access s code = s) ∧
    (∀ c, accessCountOf (get_with_details s code).2 c = accessCountOf s c) := by
  refine ⟨?_, ?_, ?_⟩
  · intro h
    induction n with
    | zero => rfl
    | succ n ih =>
        rw [iterIncrement_next, accessCountOf_increment_self, ih]
        · omega
        · show (getKey? (iterIncrement s code n).urls code).isSome = true
          rw [iterIncrement_urls]
          exact h
  · intro h
    rw [existsCode] at h
    unfold increment_access
    rw [h]
    simp
  · intro c
    unfold get_with_details
    cases hu : getKey? s.urls code with
    | none => rfl
    | some url =>
        simp only [accessCountOf]
        exact getKeyD_dictIntRead s.accessCounts code c

/-- Witness for C4: three increments of the present code `"a"`, a no-op
increment of the absent code `"zz"`, and a detail read leaving the count of
`"a"` unchanged. -/
theorem increment_access_spec_witness :
    accessCountOf (iterIncrement ⟨[("a", "u")], [], []⟩ "a" 3) "a" =
      accessCountOf ⟨[("a", "u")], [], []⟩ "a" + 3 ∧
    increment_access ⟨[("a", "u")], [], []⟩ "zz" = ⟨[("a", "u")], [], []⟩ ∧
    accessCountOf (get_with_details ⟨[("a", "u")], [], []⟩ "a").2 "a" =
      accessCountOf ⟨[("a", "u")], [], []⟩ "a" := by
  refine ⟨(increment_access_spec ⟨[("a", "u")], [], []⟩ "a" 3).1 (by decide),
    (increment_access_spec ⟨[("a", "u")], [], []⟩ "zz" 0).2.1 (by decide),
    (increment_access_spec ⟨[("a", "u")], [], []⟩ "a" 0).2.2 "a"⟩

/-- C5: `bulk_delete` attempts `delete` on every input code exactly once in
input order without aborting partway: the failed codes form a sublist of the
input (hence appear in input order), and the deleted count plus the number of
failed codes equals the length of the input, so every input occurrence falls
in exactly one of the two outcomes. -/
theorem bulk_delete_spec (s : URLStorage) (codes : List String) :
    (bulk_delete s codes).1.1 + (bulk_delete s codes).1.2.length =
      codes.length ∧
    (bulk_delete s codes).1.2.Sublist codes := by
  induction codes generalizing s with
  | nil => simp [bulk_delete]
  | cons code rest ih =>
      obtain ⟨h1, h2⟩ := ih (delete s code).2
      cases hdel : (delete s code).1
      · refine ⟨?_, ?_⟩
        · simp [bulk_delete, hdel]
          omega
        · simp [bulk_delete, hdel]
          exact h2
      · refine ⟨?_, ?_⟩
        · simp [bulk_delete, hdel]
          omega
        · simp [bulk_delete, hdel]
          exact h2.cons code

/-- C8: `delete` returns whether the code existed, and when it returns
`True` the entry is removed from all three dictionaries, so that afterwards
`exists` is `False` and `get` and `get_with_details` both report absence.
The `Nodup` hypotheses are the key-uniqueness invariant of Python dicts. -/
theorem delete_spec (s : URLStorage) (code : String)
    (h1 : (keysOf s.urls).Nodup) (h2 : (keysOf s.accessCounts).Nodup)
    (h3 : (keysOf s.createdAt).Nodup) :
    (delete s code).1 = existsCode s code ∧
    ((delete s code).1 = true →
      existsCode (delete s code).2 code = false ∧
      get (delete s code).2 code = none ∧
      (get_with_details (delete s code).2 code).1 = none ∧
      getKey? (delete s code).2.accessCounts code = none ∧
      getKey? (delete s code).2.createdAt code = none) := by
  by_cases h : (getKey? s.urls code).isSome
  · refine ⟨by simp [delete, h, existsCode], fun _ => ?_⟩
    have hu : getKey? (delete s code).2.urls code = none := by
      simp only [delete, if_pos h]
      exact getKey?_eraseKey_self s.urls code h1
    refine ⟨by simp [existsCode, hu], hu, by simp [get_with_details, hu],
      ?_, ?_⟩
    · simp only [delete, if_pos h]
      exact getKey?_eraseKey_self s.accessCounts code h2
    · simp only [delete, if_pos h]
      exact getKey?_eraseKey_self s.createdAt code h3
  · refine ⟨by simp [delete, h, existsCode, Bool.eq_false_iff], fun hf => ?_⟩
    rw [delete, if_neg h] at hf
    simp at hf

/-- Witness for C8: deleting the present code `"a"`. -/
theorem delete_spec_witness :
    (delete ⟨[("a", "u")], [("a", 1)], [("a", "t")]⟩ "a").1 =
      existsCode ⟨[("a", "u")], [("a", 1)], [("a", "t")]⟩ "a" ∧
    (existsCode (delete ⟨[("a", "u")], [("a", 1)], [("a", "t")]⟩ "a").2 "a" =
      false ∧
    get (delete ⟨[("a", "u")], [("a", 1)], [("a", "t")]⟩ "a").2 "a" = none) := by
  have h := delete_spec ⟨[("a", "u")], [("a", 1)], [("a", "t")]⟩ "a"
    (by decide) (by decide) (by decide)
  have h' := h.2 (by decide)
  exact ⟨h.1, h'.1, h'.2.1⟩

theorem listInfixB_nil (l : List Char) : listInfixB [] l = true := by
  cases l <;> simp [listInfixB, listPrefixB]

theorem strContains_empty (hay : String) : strContains hay "" = true := by
  unfold strContains
  have h : ("" : String).toList = [] := rfl
  rw [h]
  exact listInfixB_nil hay.toList

/-- C9: `search(q)` returns exactly those entries for which the lowercased
query is a substring of the lowercased short code or of the lowercased URL
(each carrying its current access count); the empty query matches every
entry. -/
theorem search_spec (s : URLStorage) (query : String) :
    (∀ r : SearchResult, r ∈ (search s query).1 ↔
      ((r.short_code, r.original_url) ∈ s.urls ∧
       (strContains (strLower r.short_code) (strLower query) ||
        strContains (strLower r.original_url) (strLower query)) = true ∧
       r.access_count = accessCountOf s r.short_code)) ∧
    (query = "" → ∀ p ∈ s.urls,
      (⟨p.1, p.2, accessCountOf s p.1⟩ : SearchResult) ∈ (search s query).1) := by
  have hf : (search s query).1 = s.urls.filterMap (fun p =>
      if strContains (strLower p.1) (strLower query) ||
          strContains (strLower p.2) (strLower query) then
        some ⟨p.1, p.2, getKeyD s.accessCounts p.1 0⟩
      else none) := searchLoop_fst (strLower query) s.accessCounts s.urls
  have hmain : ∀ r : SearchResult, r ∈ (search s query).1 ↔
      ((r.short_code, r.original_url) ∈ s.urls ∧
       (strContains (strLower r.short_code) (strLower query) ||
        strContains (strLower r.original_url) (strLower query)) = true ∧
       r.access_count = accessCountOf s r.short_code) := by
    intro r
    rw [hf, List.mem_filterMap]
    constructor
    · rintro ⟨⟨c, u⟩, hmem, hsome⟩
      by_cases hc : (strContains (strLower c) (strLower query) ||
          strContains (strLower u) (strLower query)) = true
      · rw [if_pos hc] at hsome
        have hr := Option.some.inj hsome
        subst hr
        exact ⟨hmem, hc, rfl⟩
      · rw [if_neg hc] at hsome
        cases hsome
    · rintro ⟨hmem, hcond, hcnt⟩
      refine ⟨(r.short_code, r.original_url), hmem, ?_⟩
      rw [if_pos hcond]
      obtain ⟨a, b, c⟩ := r
      simp only [accessCountOf] at hcnt
      simp [hcnt]
  refine ⟨hmain, ?_⟩
  rintro rfl p hp
  apply (hmain ⟨p.1, p.2, accessCountOf s p.1⟩).mpr
  have he : strLower "" = "" := by decide
  refine ⟨hp, ?_, rfl⟩
  rw [he]
  simp [strContains_empty]

/-- Witness for C9: the empty query returns the single stored entry. -/
theorem search_spec_witness :
    (⟨"a", "u", 0⟩ : SearchResult) ∈ (search ⟨[("a", "u")], [], []⟩ "").1 :=
  (search_spec ⟨[("a", "u")], [], []⟩ "").2 rfl ("a", "u") (by simp)

/-- C6: `Stats().total_accesses` equals the sum of the observable access
counts over all entries present in the store, and `Stats().total_urls` equals
`Count()`.  The hypotheses are the Python-dict key-uniqueness invariant and
the `_access_counts`-keys-within-`_urls`-keys invariant of reachable
stores. -/
theorem stats_totals (s : URLStorage)
    (h1 : (keysOf s.urls).Nodup) (h2 : (keysOf s.accessCounts).Nodup)
    (hsub : ∀ c ∈ keysOf s.accessCounts, c ∈ keysOf s.urls) :
    (get_stats s).total_accesses =
      ((keysOf s.urls).map (fun c => accessCountOf s c)).sum ∧
    (get_stats s).total_urls = countUrls s := by
  refine ⟨?_, rfl⟩
  have h := sum_getKeyD_of_nodup s.accessCounts (keysOf s.urls) h1 h2 hsub
  show (s.accessCounts.map Prod.snd).sum = _
  exact h.symm

/-- Witness for C6 on a store with a never-accessed entry `"b"`. -/
theorem stats_totals_witness :
    (get_stats ⟨[("a", "u"), ("b", "v")], [("a", 3)], []⟩).total_accesses =
      ((keysOf (⟨[("a", "u"), ("b", "v")], [("a", 3)], []⟩ :
        URLStorage).urls).map
        (fun c => accessCountOf ⟨[("a", "u"), ("b", "v")], [("a", 3)], []⟩ c)).sum ∧
    (get_stats ⟨[("a", "u"), ("b", "v")], [("a", 3)], []⟩).total_urls =
      countUrls ⟨[("a", "u"), ("b", "v")], [("a", 3)], []⟩ :=
  stats_totals ⟨[("a", "u"), ("b", "v")], [("a", 3)], []⟩ (by decide)
    (by decide) (by decide)

/-- C1 (counterexample): in the store obtained by saving one entry and never
accessing it, the store holds one entry (fewer than 5), yet
`get_stats().most_accessed` and `least_accessed` are both empty — they do not
contain every entry of the store, because `get_stats` sorts the items of
`_access_counts`, which omits never-touched codes, not the entries of
`_urls`. -/
theorem stats_claim_counterexample :
    countUrls ⟨[("abc", "http://x")], [], [("abc", "t0")]⟩ = 1 ∧
    (get_stats ⟨[("abc", "http://x")], [], [("abc", "t0")]⟩).most_accessed =
      [] ∧
    (get_stats ⟨[("abc", "http://x")], [], [("abc", "t0")]⟩).least_accessed =
      [] :=
  ⟨rfl, rfl, rfl⟩

/-- C1 (amended): `Stats()` computes `most_accessed` and `least_accessed` by
sorting the entries of the access-count map (which holds only codes whose
count has been touched, not necessarily every entry of the store) by
`access_count` descending; the top 5 of that sorted sequence form
`most_accessed`, the bottom 5 of the same sequence form `least_accessed`,
and when the access-count map holds fewer than 5 entries both lists contain
every entry of that map. -/
theorem stats_top_bottom (s : URLStorage) :
    List.Perm (sortCountDesc s.accessCounts) s.accessCounts ∧
    List.Sorted (fun a b : String × Nat => b.2 ≤ a.2)
      (sortCountDesc s.accessCounts) ∧
    (get_stats s).most_accessed = (sortCountDesc s.accessCounts).take 5 ∧
    (get_stats s).least_accessed =
      (sortCountDesc s.accessCounts).drop
        ((sortCountDesc s.accessCounts).length - 5) ∧
    (s.accessCounts.length < 5 → ∀ p ∈ s.accessCounts,
      p ∈ (get_stats s).most_accessed ∧ p ∈ (get_stats s).least_accessed) := by
  refine ⟨sortCountDesc_perm _, sortCountDesc_sorted _, rfl, rfl, ?_⟩
  intro hlen p hp
  have hlen' : (sortCountDesc s.accessCounts).length ≤ 5 := by
    rw [sortCountDesc_length]
    omega
  have hmem : p ∈ sortCountDesc s.accessCounts :=
    (sortCountDesc_perm s.accessCounts).mem_iff.mpr hp
  constructor
  · show p ∈ (sortCountDesc s.accessCounts).take 5
    rw [List.take_of_length_le hlen']
    exact hmem
  · show p ∈ (sortCountDesc s.accessCounts).drop
      ((sortCountDesc s.accessCounts).length - 5)
    have hz : (sortCountDesc s.accessCounts).length - 5 = 0 := by
      rw [sortCountDesc_length]
      omega
    rw [hz, List.drop_zero]
    exact hmem

/-- Witness for C1's amended claim: a store with a single touched count. -/
theorem stats_top_bottom_witness :
    ("a", 1) ∈ (get_stats ⟨[("a", "u")], [("a", 1)], []⟩).most_accessed ∧
    ("a", 1) ∈ (get_stats ⟨[("a", "u")], [("a", 1)], []⟩).least_accessed :=
  (stats_top_bottom ⟨[("a", "u")], [("a", 1)], []⟩).2.2.2.2 (by decide)
    ("a", 1) (by simp)

end UrlShortener
